import Mathlib

/-!
# Verification of the oddscout distribution calculator core

A shallow embedding of the numeric core of the calculator:

* `oddsToImpliedProbability` — American odds to implied probability
  (`src/lib/odds.ts`, `oddsToImpliedProbability`);
* `calculateProbabilityDistribution` — grouping by threshold, no-vig
  normalization, sorting, and gap-aware slicing into outcome ranges
  (`src/lib/distribution.ts`, `calculateProbabilityDistribution`);
* `validateLines` — the consistency/market-efficiency validator
  (`src/lib/validation.ts`, `validateLines`, in its final form: the
  monotonicity and negative-slice checks skip same-threshold pairs and the
  vig/arbitrage check is present).

JavaScript numbers are modelled as exact rationals (`ℚ`), `Math.floor` /
`Math.ceil` as `⌊·⌋` / `⌈·⌉`, and the insertion-ordered `Map` used for
grouping as an association list built by a fold that updates in place or
appends, exactly as `Map.set` does.  `Array.prototype.sort` with comparator
`(a, b) => a.line - b.line` is a stable ascending sort by the `line` field,
modelled by a stable insertion sort.  Human-readable `message` strings of
validation issues are presentation text and are not modelled, except for
their one piece of numeric content: the vig/arbitrage margin, kept in the
`margin` field (the source scales it by 100 to display a percentage).
-/

inductive Direction where
  | over : Direction
  | under : Direction
deriving DecidableEq

/-- A betting line (`Line` in `src/lib/odds.ts`): a direction, a numeric
threshold (the `line` field) and American odds. -/
structure Line where
  direction : Direction
  line : ℚ
  odds : ℤ
deriving DecidableEq

/-- `oddsToImpliedProbability` from `src/lib/odds.ts`: negative odds take the
favorite branch `|odds| / (|odds| + 100)`, all other odds (including `0`)
take the underdog branch `100 / (odds + 100)`. -/
def oddsToImpliedProbability (odds : ℤ) : ℚ :=
  if odds < 0 then
    (|odds| : ℚ) / ((|odds| : ℚ) + 100)
  else
    100 / ((odds : ℚ) + 100)

/-! ## Grouping by threshold

Both the distribution engine and the validator group lines by their exact
threshold value in a `Map`, updating the entry in place when the key exists
and appending a fresh entry otherwise.  `groupByLine` is that fold,
parametrised by the per-entry update function. -/

/-- One `Map.set` step: update the entry whose key is `l.line` in place, or
append a fresh entry built by `upd none l`. -/
def insertKeyed (upd : Option β → Line → β) (acc : List (ℚ × β)) (l : Line) :
    List (ℚ × β) :=
  if l.line ∈ acc.map Prod.fst then
    acc.map (fun e => if e.1 = l.line then (e.1, upd (some e.2) l) else e)
  else
    acc ++ [(l.line, upd none l)]

/-- The grouping fold: a JS `Map` keyed by threshold, in insertion order. -/
def groupByLine (upd : Option β → Line → β) (lines : List Line) : List (ℚ × β) :=
  lines.foldl (insertKeyed upd) []

/-- Lookup in the association list modelling the `Map`. -/
def findValue (acc : List (ℚ × β)) (t : ℚ) : Option β :=
  (acc.find? (fun e => decide (e.1 = t))).map Prod.snd

/-! ## The distribution engine (`src/lib/distribution.ts`) -/

/-- A group entry of `calculateProbabilityDistribution`'s `lineGroups` map:
the implied probabilities seen so far for each direction at one threshold. -/
structure OUGroup where
  over : Option ℚ
  under : Option ℚ
deriving DecidableEq

/-- Store the implied probability of a line in its direction's slot
(a later line at the same threshold and direction overwrites). -/
def distUpdate (g : Option OUGroup) (l : Line) : OUGroup :=
  let g0 := g.getD ⟨none, none⟩
  match l.direction with
  | .over => { g0 with over := some (oddsToImpliedProbability l.odds) }
  | .under => { g0 with under := some (oddsToImpliedProbability l.odds) }

/-- The `lineGroups` map of `calculateProbabilityDistribution`. -/
def lineGroups (lines : List Line) : List (ℚ × OUGroup) :=
  groupByLine distUpdate lines

/-- `NormalizedLine` of `src/lib/distribution.ts`. -/
structure NormalizedLine where
  line : ℚ
  overProbability : ℚ
deriving DecidableEq

/-- The per-group resolution rule of step 2 of the engine: no-vig transform
when both directions are present, `P(over)` for a lone Over, `1 - P(under)`
for a lone Under, and no entry for an empty group. -/
def resolveGroup (g : OUGroup) : Option ℚ :=
  match g.over, g.under with
  | some o, some u => some (o / (o + u))
  | some o, none => some o
  | none, some u => some (1 - u)
  | none, none => none

/-- Step 2 of the engine: one `NormalizedLine` per resolvable group. -/
def toNormalized (groups : List (ℚ × OUGroup)) : List NormalizedLine :=
  groups.filterMap (fun e => (resolveGroup e.2).map (fun p => ⟨e.1, p⟩))

/-- Insert an element into a list already sorted ascending by `key`, after
every element whose key is `≤` its own (the placement a stable sort gives). -/
def insertByKey (key : α → ℚ) (a : α) : List α → List α
  | [] => [a]
  | b :: rest => if key b ≤ key a then b :: insertByKey key a rest else a :: b :: rest

/-- Stable ascending sort by `key`: the model of JS
`array.sort((a, b) => key(a) - key(b))`. -/
def sortByKey (key : α → ℚ) (l : List α) : List α :=
  l.foldl (fun acc a => insertByKey key a acc) []

/-- Steps 1–3 of `calculateProbabilityDistribution`: group, resolve, sort
ascending by threshold. -/
def normalizeLines (lines : List Line) : List NormalizedLine :=
  sortByKey NormalizedLine.line (toNormalized (lineGroups lines))

/-- `OutcomeRange` of `src/lib/odds.ts`: `min`/`max` are `none` for the open
tails. -/
structure OutcomeRange where
  label : String
  probability : ℚ
  min : Option ℤ
  max : Option ℤ
deriving DecidableEq

/-- The interior slices: one range per adjacent pair of normalized lines,
with probability `cur.overProbability - next.overProbability`, bounds
`⌈cur.line⌉` and `⌊next.line⌋`, and a single-integer label when the two
coincide. -/
def middleRanges : List NormalizedLine → List OutcomeRange
  | [] => []
  | [_] => []
  | cur :: next :: rest =>
    let probability := cur.overProbability - next.overProbability
    let currentValue : ℤ := ⌈cur.line⌉
    let nextValue : ℤ := ⌊next.line⌋
    (if currentValue = nextValue then
      { label := s!"{currentValue}", probability := probability
        min := some currentValue, max := some currentValue }
    else
      { label := s!"{currentValue}-{nextValue}", probability := probability
        min := some currentValue, max := some nextValue })
      :: middleRanges (next :: rest)

/-- `calculateProbabilityDistribution` from `src/lib/distribution.ts`:
empty input yields `[]`; otherwise a bottom tail at `⌊lowest.line⌋`, the
interior slices, and a top tail at `⌈highest.line⌉`. -/
def calculateProbabilityDistribution (lines : List Line) : List OutcomeRange :=
  if lines.isEmpty then [] else
  match normalizeLines lines with
  | [] => []
  | lowest :: rest =>
    let bottomValue : ℤ := ⌊lowest.line⌋
    let highest := (lowest :: rest).getLastD lowest
    let topValue : ℤ := ⌈highest.line⌉
    { label := s!"≤{bottomValue}", probability := 1 - lowest.overProbability
      min := none, max := some bottomValue }
      :: (middleRanges (lowest :: rest) ++
        [{ label := s!"≥{topValue}", probability := highest.overProbability
           min := some topValue, max := none }])

/-! ## The validator (`src/lib/validation.ts`) -/

inductive IssueType where
  | negative_probability : IssueType
  | contradictory_probabilities : IssueType
  | total_probability : IssueType
  | vig : IssueType
  | arbitrage : IssueType
deriving DecidableEq

inductive Severity where
  | error : Severity
  | warning : Severity
  | info : Severity
deriving DecidableEq

/-- A `ValidationIssue` without its display `message` string; `margin` keeps
the numeric margin a vig/arbitrage message reports (as a fraction of 1 — the
source multiplies it by 100 only to display a percentage). -/
structure ValidationIssue where
  type : IssueType
  severity : Severity
  margin : Option ℚ
deriving DecidableEq

structure ValidationResult where
  isValid : Bool
  issues : List ValidationIssue

/-- The validator's per-line normalized view (its local `NormalizedLine`
type): each raw line separately converted to an over-probability, keeping
its original index. -/
structure VNorm where
  line : ℚ
  overProbability : ℚ
  originalIndex : ℕ
deriving DecidableEq

/-- The validator's normalization map: `1 - p` for Under lines, `p` as-is
for Over lines; one entry per raw line (no grouping). -/
def vNormalize (lines : List Line) : List VNorm :=
  lines.enum.map (fun e =>
    let impliedProb := oddsToImpliedProbability e.2.odds
    { line := e.2.line
      overProbability := if e.2.direction = .under then 1 - impliedProb else impliedProb
      originalIndex := e.1 })

/-- The validator's normalized list sorted ascending by threshold
(stable, as JS `sort`). -/
def vSorted (lines : List Line) : List VNorm :=
  sortByKey VNorm.line (vNormalize lines)

/-- Check 1 (monotonicity): for each adjacent pair of the sorted normalized
list, skip pairs at the same threshold, and report an error when the
over-probability strictly increases with the threshold. -/
def monotonicityIssues : List VNorm → List ValidationIssue
  | cur :: next :: rest =>
    (if cur.line = next.line then []
     else if cur.overProbability < next.overProbability then
       [{ type := .contradictory_probabilities, severity := .error, margin := none }]
     else []) ++ monotonicityIssues (next :: rest)
  | _ => []

/-- Check 2 (proximity): adjacent entries at distinct thresholds less than
1.0 apart produce a warning. -/
def proximityIssues : List VNorm → List ValidationIssue
  | cur :: next :: rest =>
    (if 0 < next.line - cur.line ∧ next.line - cur.line < 1 then
       [{ type := .contradictory_probabilities, severity := .warning, margin := none }]
     else []) ++ proximityIssues (next :: rest)
  | _ => []

/-- Check 3 (negative slice): for each adjacent pair at distinct thresholds,
a negative probability slice is an error. -/
def negativeSliceIssues : List VNorm → List ValidationIssue
  | cur :: next :: rest =>
    (if cur.line = next.line then []
     else if cur.overProbability - next.overProbability < 0 then
       [{ type := .negative_probability, severity := .error, margin := none }]
     else []) ++ negativeSliceIssues (next :: rest)
  | _ => []

/-- A group entry of the validator's `lineGroups` map: the raw lines seen so
far for each direction at one threshold (later lines overwrite). -/
structure PairGroup where
  over : Option Line
  under : Option Line
deriving DecidableEq

def vigUpdate (g : Option PairGroup) (l : Line) : PairGroup :=
  let g0 := g.getD ⟨none, none⟩
  match l.direction with
  | .over => { g0 with over := some l }
  | .under => { g0 with under := some l }

/-- The validator's own grouping map (check 4). -/
def vigGroups (lines : List Line) : List (ℚ × PairGroup) :=
  groupByLine vigUpdate lines

/-- Check 4 on one group: with both directions present, `total` is the sum
of the raw implied probabilities; `total > 1` is vig, `total < 1` is
arbitrage, both informational. -/
def vigCheck (g : PairGroup) : Option ValidationIssue :=
  match g.over, g.under with
  | some lo, some lu =>
    let overProb := oddsToImpliedProbability lo.odds
    let underProb := oddsToImpliedProbability lu.odds
    let totalProb := overProb + underProb
    if 1 < totalProb then
      some { type := .vig, severity := .info, margin := some (totalProb - 1) }
    else if totalProb < 1 then
      some { type := .arbitrage, severity := .info, margin := some (1 - totalProb) }
    else none
  | _, _ => none

/-- Check 4 over all groups, in the map's insertion order. -/
def vigArbIssues (lines : List Line) : List ValidationIssue :=
  (vigGroups lines).filterMap (fun e => vigCheck e.2)

/-- `validateLines` from `src/lib/validation.ts` (final version): the four
checks in source order, `isValid` iff no error-severity issue. -/
def validateLines (lines : List Line) : ValidationResult :=
  if lines.isEmpty then { isValid := true, issues := [] } else
  let normalized := vSorted lines
  let issues := monotonicityIssues normalized ++ proximityIssues normalized
      ++ negativeSliceIssues normalized ++ vigArbIssues lines
  { isValid := decide ((issues.filter (fun i => decide (i.severity = .error))).length = 0)
    issues := issues }

/-! ## Claim-side helper functions

These restate, directly over the raw input list, the data the grouping fold
ends up holding: the last line at a given threshold and direction, the
multiset of distinct thresholds, integer membership in a range, and removal
of all but the last line of each (threshold, direction) class. -/

/-- All lines at threshold `t` with direction `d`, in input order. -/
def linesAt (lines : List Line) (t : ℚ) (d : Direction) : List Line :=
  lines.filter (fun l => decide (l.line = t) && decide (l.direction = d))

/-- The last line at threshold `t` with direction `d`, if any: the one whose
probability an insertion-ordered map retains. -/
def lastLineAt (lines : List Line) (t : ℚ) (d : Direction) : Option Line :=
  (linesAt lines t d).getLast?

/-- The implied probability of the last line at `(t, d)`. -/
def lastProbAt (lines : List Line) (t : ℚ) (d : Direction) : Option ℚ :=
  (lastLineAt lines t d).map (fun l => oddsToImpliedProbability l.odds)

/-- Whether integer `n` lies in a range: an absent bound is an open tail. -/
def rangeContains (r : OutcomeRange) (n : ℤ) : Bool :=
  (match r.min with | none => true | some m => decide (m ≤ n)) &&
  (match r.max with | none => true | some m => decide (n ≤ m))

/-- Keep only the last line of each (threshold, direction) class. -/
def dedupKeepLast : List Line → List Line
  | [] => []
  | l :: rest =>
    if rest.any (fun l2 => decide (l2.line = l.line) && decide (l2.direction = l.direction)) then
      dedupKeepLast rest
    else
      l :: dedupKeepLast rest

/-- The distinct thresholds of the input, in first-occurrence order (the key
set of the grouping maps). -/
def distinctThresholds (lines : List Line) : List ℚ :=
  (vigGroups lines).map Prod.fst


/-! ## Properties of the stable sort -/

theorem insertByKey_perm (key : α → ℚ) (a : α) (l : List α) :
    List.Perm (insertByKey key a l) (a :: l) := by
  induction l with
  | nil => exact List.Perm.refl _
  | cons b rest ih =>
    simp only [insertByKey]
    by_cases h : key b ≤ key a
    · rw [if_pos h]
      exact (List.Perm.cons b ih).trans (List.Perm.swap a b rest)
    · rw [if_neg h]

theorem foldl_insertByKey_perm (key : α → ℚ) (l acc : List α) :
    List.Perm (l.foldl (fun acc a => insertByKey key a acc) acc) (acc ++ l) := by
  induction l generalizing acc with
  | nil => simp
  | cons a t ih =>
    simp only [List.foldl_cons]
    refine (ih (insertByKey key a acc)).trans ?_
    refine ((insertByKey_perm key a acc).append_right t).trans ?_
    exact List.perm_middle.symm

theorem sortByKey_perm (key : α → ℚ) (l : List α) :
    List.Perm (sortByKey key l) l := by
  simpa using foldl_insertByKey_perm key l []

theorem insertByKey_pairwise (key : α → ℚ) (a : α) {l : List α}
    (h : List.Pairwise (fun x y => key x ≤ key y) l) :
    List.Pairwise (fun x y => key x ≤ key y) (insertByKey key a l) := by
  induction l with
  | nil => simp [insertByKey]
  | cons b rest ih =>
    obtain ⟨h1, h2⟩ := List.pairwise_cons.1 h
    simp only [insertByKey]
    by_cases hba : key b ≤ key a
    · rw [if_pos hba]
      rw [List.pairwise_cons]
      constructor
      · intro x hx
        rcases List.mem_cons.1 ((insertByKey_perm key a rest).mem_iff.1 hx) with hx | hx
        · rw [hx]; exact hba
        · exact h1 x hx
      · exact ih h2
    · rw [if_neg hba]
      have hab : key a ≤ key b := le_of_not_le hba
      rw [List.pairwise_cons]
      refine ⟨?_, h⟩
      intro x hx
      rcases List.mem_cons.1 hx with hx | hx
      · rw [hx]; exact hab
      · exact hab.trans (h1 x hx)

theorem foldl_insertByKey_pairwise (key : α → ℚ) (l : List α) {acc : List α}
    (h : List.Pairwise (fun x y => key x ≤ key y) acc) :
    List.Pairwise (fun x y => key x ≤ key y)
      (l.foldl (fun acc a => insertByKey key a acc) acc) := by
  induction l generalizing acc with
  | nil => exact h
  | cons a t ih => exact ih (insertByKey_pairwise key a h)

theorem sortByKey_pairwise (key : α → ℚ) (l : List α) :
    List.Pairwise (fun x y => key x ≤ key y) (sortByKey key l) :=
  foldl_insertByKey_pairwise key l List.Pairwise.nil

/-! ## Properties of the grouping fold -/

/-- What the per-key state of the map amounts to after a full pass over the
lines of one threshold class: the fold of the update function, seeded by an
absent entry. -/
def foldClass (upd : Option β → Line → β) (ls : List Line) : Option β :=
  ls.foldl (fun s l => some (upd s l)) none

theorem foldClass_concat (upd : Option β → Line → β) (ls : List Line) (l : Line) :
    foldClass upd (ls ++ [l]) = some (upd (foldClass upd ls) l) := by
  simp [foldClass, List.foldl_append]

theorem findValue_nil (t : ℚ) : findValue ([] : List (ℚ × β)) t = none := rfl

theorem findValue_cons_pos {e : ℚ × β} {rest : List (ℚ × β)} {t : ℚ} (h : e.1 = t) :
    findValue (e :: rest) t = some e.2 := by
  unfold findValue
  rw [List.find?_cons_of_pos _ (by simp [h])]
  rfl

theorem findValue_cons_neg {e : ℚ × β} {rest : List (ℚ × β)} {t : ℚ} (h : ¬ e.1 = t) :
    findValue (e :: rest) t = findValue rest t := by
  unfold findValue
  rw [List.find?_cons_of_neg _ (by simp [h])]

theorem mem_fst_iff_isSome (acc : List (ℚ × β)) (t : ℚ) :
    t ∈ acc.map Prod.fst ↔ (findValue acc t).isSome := by
  induction acc with
  | nil => simp [findValue_nil]
  | cons e rest ih =>
    by_cases he : e.1 = t
    · simp [findValue_cons_pos he, he]
    · rw [findValue_cons_neg he]
      simp only [List.map_cons, List.mem_cons]
      rw [← ih]
      constructor
      · rintro (h | h)
        · exact absurd h.symm he
        · exact h
      · intro h; exact Or.inr h

theorem findValue_map_update (acc : List (ℚ × β)) (k t : ℚ) (f : β → β) :
    findValue (acc.map (fun e => if e.1 = k then (e.1, f e.2) else e)) t =
      if t = k then (findValue acc k).map f else findValue acc t := by
  induction acc with
  | nil => by_cases htk : t = k <;> simp [findValue_nil, htk]
  | cons e rest ih =>
    simp only [List.map_cons]
    by_cases he : e.1 = t
    · have hge : (if e.1 = k then (e.1, f e.2) else e).1 = t := by
        split <;> simpa using he
      rw [findValue_cons_pos hge]
      by_cases htk : t = k
      · have hek : e.1 = k := he.trans htk
        rw [if_pos htk, findValue_cons_pos hek]
        simp [hek]
      · have hek : ¬ e.1 = k := fun hh => htk (he.symm.trans hh)
        rw [if_neg htk, findValue_cons_pos he, if_neg hek]
    · have hge : ¬ (if e.1 = k then (e.1, f e.2) else e).1 = t := by
        split <;> simpa using he
      rw [findValue_cons_neg hge, ih]
      by_cases htk : t = k
      · have hek : ¬ e.1 = k := fun hh => he (hh.trans htk.symm)
        rw [if_pos htk, if_pos htk, findValue_cons_neg hek]
      · rw [if_neg htk, if_neg htk, findValue_cons_neg he]

theorem findValue_append_some {acc : List (ℚ × β)} {t : ℚ} {b : β}
    (h : findValue acc t = some b) (l2 : List (ℚ × β)) :
    findValue (acc ++ l2) t = some b := by
  induction acc with
  | nil => rw [findValue_nil] at h; exact absurd h (by simp)
  | cons e rest ih =>
    by_cases he : e.1 = t
    · rw [findValue_cons_pos he] at h
      rw [List.cons_append, findValue_cons_pos he, h]
    · rw [findValue_cons_neg he] at h
      rw [List.cons_append, findValue_cons_neg he]
      exact ih h

theorem findValue_append_none {acc : List (ℚ × β)} {t : ℚ}
    (h : findValue acc t = none) (l2 : List (ℚ × β)) :
    findValue (acc ++ l2) t = findValue l2 t := by
  induction acc with
  | nil => simp
  | cons e rest ih =>
    by_cases he : e.1 = t
    · rw [findValue_cons_pos he] at h; exact absurd h (by simp)
    · rw [findValue_cons_neg he] at h
      rw [List.cons_append, findValue_cons_neg he]
      exact ih h

theorem findValue_single (k : ℚ) (v : β) (t : ℚ) :
    findValue [(k, v)] t = if t = k then some v else none := by
  by_cases htk : t = k
  · rw [findValue_cons_pos htk.symm, if_pos htk]
  · rw [findValue_cons_neg (fun hh => htk hh.symm), findValue_nil, if_neg htk]

theorem findValue_insertKeyed (upd : Option β → Line → β) (acc : List (ℚ × β))
    (l : Line) (t : ℚ) :
    findValue (insertKeyed upd acc l) t =
      if t = l.line then some (upd (findValue acc l.line) l) else findValue acc t := by
  simp only [insertKeyed]
  by_cases hmem : l.line ∈ acc.map Prod.fst
  · rw [if_pos hmem]
    rw [findValue_map_update acc l.line t (fun b => upd (some b) l)]
    by_cases htk : t = l.line
    · obtain ⟨b, hb⟩ := Option.isSome_iff_exists.1 ((mem_fst_iff_isSome acc l.line).1 hmem)
      rw [if_pos htk, if_pos htk, hb]
      simp
    · rw [if_neg htk, if_neg htk]
  · rw [if_neg hmem]
    have hnone : findValue acc l.line = none := by
      rw [← Option.not_isSome_iff_eq_none, ← mem_fst_iff_isSome]
      exact hmem
    by_cases htk : t = l.line
    · rw [if_pos htk, htk, findValue_append_none hnone, findValue_single, if_pos rfl, hnone]
    · rw [if_neg htk]
      cases hv : findValue acc t with
      | none =>
        rw [findValue_append_none hv, findValue_single, if_neg htk]
      | some b =>
        rw [findValue_append_some hv]

theorem findValue_groupByLine (upd : Option β → Line → β) (lines : List Line) (t : ℚ) :
    findValue (groupByLine upd lines) t =
      foldClass upd (lines.filter (fun l => decide (l.line = t))) := by
  induction lines using List.reverseRecOn with
  | nil => simp [groupByLine, findValue_nil, foldClass]
  | append_singleton ls l ih =>
    have hstep : groupByLine upd (ls ++ [l]) = insertKeyed upd (groupByLine upd ls) l := by
      simp [groupByLine, List.foldl_append]
    rw [hstep, findValue_insertKeyed, List.filter_append]
    by_cases ht : t = l.line
    · subst ht
      rw [if_pos rfl]
      have hl : List.filter (fun l2 => decide (l2.line = l.line)) [l] = [l] := by simp
      rw [hl, foldClass_concat, ih]
    · rw [if_neg ht]
      have hlt : ¬ l.line = t := fun hh => ht hh.symm
      have hl : List.filter (fun l2 => decide (l2.line = t)) [l] = [] := by simp [hlt]
      rw [hl, List.append_nil, ih]

theorem keys_insertKeyed (upd : Option β → Line → β) (acc : List (ℚ × β)) (l : Line) :
    (insertKeyed upd acc l).map Prod.fst =
      if l.line ∈ acc.map Prod.fst then acc.map Prod.fst
      else acc.map Prod.fst ++ [l.line] := by
  simp only [insertKeyed]
  by_cases hmem : l.line ∈ acc.map Prod.fst
  · rw [if_pos hmem, if_pos hmem, List.map_map]
    apply List.map_congr_left
    intro e _
    by_cases h : e.1 = l.line <;> simp [h]
  · rw [if_neg hmem, if_neg hmem, List.map_append]
    rfl

theorem keys_foldl_nodup (upd : Option β → Line → β) (lines : List Line) :
    ∀ acc : List (ℚ × β), (acc.map Prod.fst).Nodup →
      ((lines.foldl (insertKeyed upd) acc).map Prod.fst).Nodup := by
  induction lines with
  | nil => intro acc h; exact h
  | cons l rest ih =>
    intro acc h
    rw [List.foldl_cons]
    apply ih
    rw [keys_insertKeyed]
    by_cases hmem : l.line ∈ acc.map Prod.fst
    · rw [if_pos hmem]; exact h
    · rw [if_neg hmem]
      simp [List.nodup_append, h, hmem]

theorem keys_groupByLine_nodup (upd : Option β → Line → β) (lines : List Line) :
    ((groupByLine upd lines).map Prod.fst).Nodup :=
  keys_foldl_nodup upd lines [] (by simp)

theorem foldClass_isSome (upd : Option β → Line → β) (ls : List Line) :
    (foldClass upd ls).isSome = true ↔ ls ≠ [] := by
  cases ls with
  | nil => simp [foldClass]
  | cons x xs =>
    simp only [foldClass, List.foldl_cons, ne_eq, reduceCtorEq, not_false_eq_true,
      iff_true]
    have aux : ∀ (ys : List Line) (o : Option β), o.isSome = true →
        (ys.foldl (fun s l => some (upd s l)) o).isSome = true := by
      intro ys
      induction ys with
      | nil => intro o h; exact h
      | cons y yt ih => intro o _; exact ih _ (by simp)
    exact aux xs (some (upd none x)) (by simp)

theorem mem_keys_groupByLine (upd : Option β → Line → β) (lines : List Line) (t : ℚ) :
    t ∈ (groupByLine upd lines).map Prod.fst ↔ ∃ l ∈ lines, l.line = t := by
  rw [mem_fst_iff_isSome, findValue_groupByLine, foldClass_isSome]
  rw [ne_eq, List.filter_eq_nil_iff]
  constructor
  · intro h
    by_contra hc
    push_neg at hc
    exact h (fun l hl => by simp [hc l hl])
  · rintro ⟨l, hl, hline⟩ hforall
    have h2 := hforall l hl
    simp only [decide_eq_true_eq] at h2
    exact h2 hline

theorem mem_of_findValue {acc : List (ℚ × β)} {t : ℚ} {g : β}
    (h : findValue acc t = some g) : (t, g) ∈ acc := by
  induction acc with
  | nil => rw [findValue_nil] at h; exact absurd h (by simp)
  | cons e rest ih =>
    by_cases he : e.1 = t
    · rw [findValue_cons_pos he] at h
      have hg : g = e.2 := by injection h with h2; exact h2.symm
      have : (t, g) = e := by
        obtain ⟨a, b⟩ := e
        simp only at he hg
        rw [← he, hg]
      rw [this]
      exact List.mem_cons_self e rest
    · rw [findValue_cons_neg he] at h
      exact List.mem_cons_of_mem e (ih h)

theorem findValue_of_mem_nodup {acc : List (ℚ × β)} {e : ℚ × β}
    (hnodup : (acc.map Prod.fst).Nodup) (hm : e ∈ acc) :
    findValue acc e.1 = some e.2 := by
  induction acc with
  | nil => exact absurd hm (by simp)
  | cons a rest ih =>
    rcases List.mem_cons.1 hm with hm | hm
    · rw [hm, findValue_cons_pos rfl]
    · have ha : a.1 ∉ rest.map Prod.fst := by
        rw [List.map_cons, List.nodup_cons] at hnodup
        exact hnodup.1
      have hne : ¬ a.1 = e.1 := by
        intro hh
        exact ha (hh ▸ List.mem_map.2 ⟨e, hm, rfl⟩)
      rw [findValue_cons_neg hne]
      exact ih (by rw [List.map_cons, List.nodup_cons] at hnodup; exact hnodup.2) hm

/-! ## The content of the grouped entries -/

theorem foldClass_distUpdate (ls : List Line) (hne : ls ≠ []) :
    foldClass distUpdate ls = some
      { over := ((ls.filter (fun l => decide (l.direction = Direction.over))).getLast?).map
          (fun l => oddsToImpliedProbability l.odds)
        under := ((ls.filter (fun l => decide (l.direction = Direction.under))).getLast?).map
          (fun l => oddsToImpliedProbability l.odds) } := by
  induction ls using List.reverseRecOn with
  | nil => exact absurd rfl hne
  | append_singleton xs l ih =>
    rw [foldClass_concat]
    by_cases hxs : xs = []
    · subst hxs
      simp only [List.nil_append, foldClass, List.foldl_nil]
      cases hd : l.direction <;>
        simp [distUpdate, hd, List.filter_cons, List.filter_nil]
    · rw [ih hxs]
      cases hd : l.direction <;>
        simp [distUpdate, hd, List.filter_append, List.filter_cons, List.filter_nil,
          List.getLast?_concat]

theorem foldClass_vigUpdate (ls : List Line) (hne : ls ≠ []) :
    foldClass vigUpdate ls = some
      { over := (ls.filter (fun l => decide (l.direction = Direction.over))).getLast?
        under := (ls.filter (fun l => decide (l.direction = Direction.under))).getLast? } := by
  induction ls using List.reverseRecOn with
  | nil => exact absurd rfl hne
  | append_singleton xs l ih =>
    rw [foldClass_concat]
    by_cases hxs : xs = []
    · subst hxs
      simp only [List.nil_append, foldClass, List.foldl_nil]
      cases hd : l.direction <;>
        simp [vigUpdate, hd, List.filter_cons, List.filter_nil]
    · rw [ih hxs]
      cases hd : l.direction <;>
        simp [vigUpdate, hd, List.filter_append, List.filter_cons, List.filter_nil,
          List.getLast?_concat]

theorem filter_class_dir (lines : List Line) (t : ℚ) (d : Direction) :
    (lines.filter (fun l => decide (l.line = t))).filter
      (fun l => decide (l.direction = d)) = linesAt lines t d := by
  rw [List.filter_filter]
  simp only [linesAt]
  apply List.filter_congr
  intro a _
  exact Bool.and_comm _ _

theorem class_filter_ne_nil {lines : List Line} {t : ℚ} (h : ∃ l ∈ lines, l.line = t) :
    lines.filter (fun l => decide (l.line = t)) ≠ [] := by
  rw [ne_eq, List.filter_eq_nil_iff]
  push_neg
  obtain ⟨l, hl, ht⟩ := h
  exact ⟨l, hl, by simp [ht]⟩

theorem findValue_lineGroups {lines : List Line} {t : ℚ} (h : ∃ l ∈ lines, l.line = t) :
    findValue (lineGroups lines) t =
      some { over := lastProbAt lines t Direction.over
             under := lastProbAt lines t Direction.under } := by
  rw [lineGroups, findValue_groupByLine, foldClass_distUpdate _ (class_filter_ne_nil h)]
  unfold lastProbAt lastLineAt
  rw [← filter_class_dir lines t Direction.over, ← filter_class_dir lines t Direction.under]

theorem findValue_vigGroups {lines : List Line} {t : ℚ} (h : ∃ l ∈ lines, l.line = t) :
    findValue (vigGroups lines) t =
      some { over := lastLineAt lines t Direction.over
             under := lastLineAt lines t Direction.under } := by
  rw [vigGroups, findValue_groupByLine, foldClass_vigUpdate _ (class_filter_ne_nil h)]
  unfold lastLineAt
  rw [← filter_class_dir lines t Direction.over, ← filter_class_dir lines t Direction.under]

theorem findValue_groupByLine_none (upd : Option β → Line → β) {lines : List Line}
    {t : ℚ} (h : ¬ ∃ l ∈ lines, l.line = t) :
    findValue (groupByLine upd lines) t = none := by
  rw [findValue_groupByLine]
  have hnil : lines.filter (fun l => decide (l.line = t)) = [] := by
    rw [List.filter_eq_nil_iff]
    intro a ha
    simp only [decide_eq_true_eq]
    exact fun hh => h ⟨a, ha, hh⟩
  rw [hnil]
  rfl

theorem lastLineAt_cases {lines : List Line} {t : ℚ} (h : ∃ l ∈ lines, l.line = t) :
    (lastLineAt lines t Direction.over).isSome = true ∨
      (lastLineAt lines t Direction.under).isSome = true := by
  obtain ⟨l, hl, ht⟩ := h
  cases hd : l.direction with
  | over =>
    left
    rw [lastLineAt, List.getLast?_isSome, linesAt, ne_eq, List.filter_eq_nil_iff]
    push_neg
    exact ⟨l, hl, by simp [ht, hd]⟩
  | under =>
    right
    rw [lastLineAt, List.getLast?_isSome, linesAt, ne_eq, List.filter_eq_nil_iff]
    push_neg
    exact ⟨l, hl, by simp [ht, hd]⟩

theorem lineGroups_entry {lines : List Line} {e : ℚ × OUGroup}
    (he : e ∈ lineGroups lines) :
    e.2 = { over := lastProbAt lines e.1 Direction.over
            under := lastProbAt lines e.1 Direction.under } ∧
      (resolveGroup e.2).isSome = true := by
  have hkey : e.1 ∈ (lineGroups lines).map Prod.fst := List.mem_map.2 ⟨e, he, rfl⟩
  have hex : ∃ l ∈ lines, l.line = e.1 := (mem_keys_groupByLine _ _ _).1 hkey
  have hfind := findValue_of_mem_nodup (keys_groupByLine_nodup distUpdate lines) he
  have hcomb : some e.2 = some
      { over := lastProbAt lines e.1 Direction.over
        under := lastProbAt lines e.1 Direction.under } :=
    hfind.symm.trans (findValue_lineGroups hex)
  have hval : e.2 = { over := lastProbAt lines e.1 Direction.over
                      under := lastProbAt lines e.1 Direction.under } := by
    injection hcomb
  refine ⟨hval, ?_⟩
  rw [hval]
  rcases lastLineAt_cases hex with hc | hc
  · obtain ⟨l0, hl0⟩ := Option.isSome_iff_exists.1 hc
    have hover : lastProbAt lines e.1 Direction.over =
        some (oddsToImpliedProbability l0.odds) := by
      rw [lastProbAt, hl0]; rfl
    cases hunder : lastProbAt lines e.1 Direction.under <;>
      simp [resolveGroup, hover, hunder]
  · obtain ⟨l0, hl0⟩ := Option.isSome_iff_exists.1 hc
    have hunder : lastProbAt lines e.1 Direction.under =
        some (oddsToImpliedProbability l0.odds) := by
      rw [lastProbAt, hl0]; rfl
    cases hover : lastProbAt lines e.1 Direction.over <;>
      simp [resolveGroup, hover, hunder]

theorem toNormalized_map_line {groups : List (ℚ × OUGroup)}
    (h : ∀ e ∈ groups, (resolveGroup e.2).isSome = true) :
    (toNormalized groups).map NormalizedLine.line = groups.map Prod.fst := by
  induction groups with
  | nil => rfl
  | cons e rest ih =>
    obtain ⟨p, hp⟩ := Option.isSome_iff_exists.1 (h e (List.mem_cons_self e rest))
    simp only [toNormalized, List.filterMap_cons, hp, Option.map_some', List.map_cons]
    refine congrArg (fun xs => e.1 :: xs) ?_
    exact ih (fun e2 he2 => h e2 (List.mem_cons_of_mem e he2))

theorem mem_toNormalized {groups : List (ℚ × OUGroup)} {n : NormalizedLine} :
    n ∈ toNormalized groups ↔
      ∃ g, (n.line, g) ∈ groups ∧ resolveGroup g = some n.overProbability := by
  obtain ⟨nl, np⟩ := n
  simp only [toNormalized, List.mem_filterMap]
  constructor
  · rintro ⟨e, he, hfe⟩
    cases hres : resolveGroup e.2 with
    | none => rw [hres] at hfe; exact absurd hfe (by simp)
    | some p =>
      rw [hres] at hfe
      simp only [Option.map_some', Option.some.injEq, NormalizedLine.mk.injEq] at hfe
      refine ⟨e.2, ?_, by rw [hres, hfe.2]⟩
      have heq : (nl, e.2) = e := by
        obtain ⟨a, b⟩ := e
        simp only at hfe ⊢
        rw [← hfe.1]
      rw [heq]
      exact he
  · rintro ⟨g, hg, hres⟩
    exact ⟨(nl, g), hg, by simp [hres]⟩

theorem normalizeLines_perm (lines : List Line) :
    List.Perm (normalizeLines lines) (toNormalized (lineGroups lines)) :=
  sortByKey_perm _ _

theorem normalizeLines_line_nodup (lines : List Line) :
    ((normalizeLines lines).map NormalizedLine.line).Nodup := by
  have hperm := (normalizeLines_perm lines).map NormalizedLine.line
  rw [hperm.nodup_iff]
  rw [@toNormalized_map_line (lineGroups lines) (fun e he => (lineGroups_entry he).2)]
  exact keys_groupByLine_nodup distUpdate lines

theorem normalizeLines_sorted (lines : List Line) :
    List.Pairwise (fun a b : NormalizedLine => a.line < b.line) (normalizeLines lines) := by
  have hle := sortByKey_pairwise NormalizedLine.line (toNormalized (lineGroups lines))
  have hne : List.Pairwise (fun a b : NormalizedLine => a.line ≠ b.line)
      (normalizeLines lines) := by
    rw [← List.pairwise_map (f := NormalizedLine.line)]
    exact normalizeLines_line_nodup lines
  exact ((foldl_insertByKey_pairwise NormalizedLine.line _ List.Pairwise.nil).and hne).imp
    (fun h => lt_of_le_of_ne h.1 h.2)

theorem mem_normalizeLines {lines : List Line} {n : NormalizedLine} :
    n ∈ normalizeLines lines ↔
      ∃ g, (n.line, g) ∈ lineGroups lines ∧ resolveGroup g = some n.overProbability := by
  rw [(normalizeLines_perm lines).mem_iff]
  exact mem_toNormalized

theorem normalizeLines_nil : normalizeLines [] = [] := rfl

theorem normalizeLines_ne_nil {lines : List Line} (h : lines ≠ []) :
    normalizeLines lines ≠ [] := by
  obtain ⟨l, hl⟩ := List.exists_mem_of_ne_nil lines h
  have hkey : l.line ∈ (lineGroups lines).map Prod.fst :=
    (mem_keys_groupByLine _ _ _).2 ⟨l, hl, rfl⟩
  intro hnil
  have hperm := normalizeLines_perm lines
  rw [hnil] at hperm
  have hempty : toNormalized (lineGroups lines) = [] := hperm.symm.eq_nil
  have hkeys : (lineGroups lines).map Prod.fst = [] := by
    rw [← @toNormalized_map_line (lineGroups lines) (fun e he => (lineGroups_entry he).2),
      hempty]
    rfl
  rw [hkeys] at hkey
  exact absurd hkey (by simp)

/-! ## Claim theorems -/

/-- C2: the spec requires `toImpliedProbability` to fail explicitly on
`odds == 0`; the source instead takes the positive-odds branch and silently
returns `100 / (0 + 100) = 1`.  This theorem evaluates the code at the
failing input, documenting the divergence. -/
theorem c2_zero_odds_silently_returns_one : oddsToImpliedProbability 0 = 1 := by
  norm_num [oddsToImpliedProbability]

/-- C4: for every nonzero integer odds value, the conversion uses
`|odds| / (|odds| + 100)` on the negative branch and `100 / (odds + 100)` on
the positive branch, and the result lies strictly between 0 and 1. -/
theorem c4_odds_conversion (odds : ℤ) (h : odds ≠ 0) :
    (odds < 0 → oddsToImpliedProbability odds = (|odds| : ℚ) / ((|odds| : ℚ) + 100)) ∧
    (0 < odds → oddsToImpliedProbability odds = 100 / ((odds : ℚ) + 100)) ∧
    0 < oddsToImpliedProbability odds ∧ oddsToImpliedProbability odds < 1 := by
  rcases lt_trichotomy odds 0 with hneg | hzero | hpos
  · have ha : (0:ℚ) < (|odds| : ℚ) := by
      have h0 : (0:ℤ) < |odds| := abs_pos.2 h
      exact_mod_cast h0
    refine ⟨fun _ => ?_, fun hp => absurd hp (by omega), ?_, ?_⟩
    · rw [oddsToImpliedProbability, if_pos hneg]
    · rw [oddsToImpliedProbability, if_pos hneg]
      exact div_pos ha (by linarith)
    · rw [oddsToImpliedProbability, if_pos hneg]
      rw [div_lt_one (by linarith)]
      linarith
  · exact absurd hzero h
  · have hnneg : ¬ odds < 0 := by omega
    have hc : (0:ℚ) < (odds : ℚ) := by exact_mod_cast hpos
    refine ⟨fun hn => absurd hn hnneg, fun _ => ?_, ?_, ?_⟩
    · rw [oddsToImpliedProbability, if_neg hnneg]
    · rw [oddsToImpliedProbability, if_neg hnneg]
      exact div_pos (by norm_num) (by linarith)
    · rw [oddsToImpliedProbability, if_neg hnneg]
      rw [div_lt_one (by linarith)]
      linarith

/-- Witness for C4 at the concrete odds `-110`. -/
theorem c4_odds_conversion_witness :
    ((-110 : ℤ) ≠ 0) ∧
      0 < oddsToImpliedProbability (-110) ∧ oddsToImpliedProbability (-110) < 1 :=
  ⟨by norm_num, (c4_odds_conversion (-110) (by norm_num)).2.2⟩

/-- C9: `isValid` is true exactly when no reported issue has severity
`error`. -/
theorem c9_isValid_iff_no_error (lines : List Line) :
    (validateLines lines).isValid = true ↔
      ∀ i ∈ (validateLines lines).issues, i.severity ≠ Severity.error := by
  by_cases hemp : lines.isEmpty = true
  · simp [validateLines, hemp]
  · simp [validateLines, hemp, List.length_eq_zero, List.filter_eq_nil_iff]
    constructor
    · rintro ⟨h1, h2, h3, h4⟩ i hi
      rcases hi with hi | hi | hi | hi
      · exact h1 i hi
      · exact h2 i hi
      · exact h3 i hi
      · exact h4 i hi
    · intro hall
      exact ⟨fun i hi => hall i (Or.inl hi), fun i hi => hall i (Or.inr (Or.inl hi)),
        fun i hi => hall i (Or.inr (Or.inr (Or.inl hi))),
        fun i hi => hall i (Or.inr (Or.inr (Or.inr hi)))⟩

/-- C3: the normalization step inside `calculateProbabilityDistribution`
yields one entry per distinct threshold of the input (strictly ascending by
threshold), whose over-probability is the raw `P(over)` for a lone Over
line, `1 - P(under)` for a lone Under line, and the no-vig
`P(over) / (P(over) + P(under))` when both directions are present (the
probability of the last line of each direction at that threshold — later
duplicates overwrite earlier ones). -/
theorem c3_normalization (lines : List Line) :
    List.Pairwise (fun a b : NormalizedLine => a.line < b.line) (normalizeLines lines) ∧
    (∀ t : ℚ, (∃ e ∈ normalizeLines lines, e.line = t) ↔ ∃ l ∈ lines, l.line = t) ∧
    ∀ e ∈ normalizeLines lines,
      match lastProbAt lines e.line Direction.over,
          lastProbAt lines e.line Direction.under with
      | some o, some u => e.overProbability = o / (o + u)
      | some o, none => e.overProbability = o
      | none, some u => e.overProbability = 1 - u
      | none, none => False := by
  refine ⟨normalizeLines_sorted lines, ?_, ?_⟩
  · intro t
    constructor
    · rintro ⟨e, he, rfl⟩
      obtain ⟨g, hg, _⟩ := mem_normalizeLines.1 he
      exact (mem_keys_groupByLine distUpdate lines e.line).1
        (List.mem_map.2 ⟨(e.line, g), hg, rfl⟩)
    · intro hex
      have hfv := findValue_lineGroups hex
      have hmem : (t, { over := lastProbAt lines t Direction.over
                        under := lastProbAt lines t Direction.under }) ∈ lineGroups lines :=
        mem_of_findValue hfv
      obtain ⟨p, hp⟩ := Option.isSome_iff_exists.1 (lineGroups_entry hmem).2
      refine ⟨⟨t, p⟩, mem_normalizeLines.2 ⟨_, hmem, hp⟩, rfl⟩
  · intro e he
    obtain ⟨g, hg, hres⟩ := mem_normalizeLines.1 he
    have hentry := (lineGroups_entry hg).1
    simp only at hentry
    rw [hentry] at hres
    cases ho : lastProbAt lines e.line Direction.over with
    | some o =>
      cases hu : lastProbAt lines e.line Direction.under with
      | some u =>
        rw [ho, hu] at hres
        simp only [resolveGroup, Option.some.injEq] at hres
        simpa [ho, hu] using hres.symm
      | none =>
        rw [ho, hu] at hres
        simp only [resolveGroup, Option.some.injEq] at hres
        simpa [ho, hu] using hres.symm
    | none =>
      cases hu : lastProbAt lines e.line Direction.under with
      | some u =>
        rw [ho, hu] at hres
        simp only [resolveGroup, Option.some.injEq] at hres
        simpa [ho, hu] using hres.symm
      | none =>
        rw [ho, hu] at hres
        simp [resolveGroup] at hres

/-! ## Shape of the engine's output -/

theorem calc_eq_cons {lines : List Line} {lowest : NormalizedLine}
    {rest : List NormalizedLine} (hne : lines ≠ [])
    (hnl : normalizeLines lines = lowest :: rest) :
    calculateProbabilityDistribution lines =
      { label := s!"≤{(⌊lowest.line⌋ : ℤ)}", probability := 1 - lowest.overProbability
        min := none, max := some ⌊lowest.line⌋ }
        :: (middleRanges (lowest :: rest) ++
          [{ label := s!"≥{(⌈((lowest :: rest).getLastD lowest).line⌉ : ℤ)}"
             probability := ((lowest :: rest).getLastD lowest).overProbability
             min := some ⌈((lowest :: rest).getLastD lowest).line⌉, max := none }]) := by
  have hemp : ¬ lines.isEmpty = true := by simp [List.isEmpty_iff, hne]
  simp [calculateProbabilityDistribution, hemp, hnl]

theorem calc_nil : calculateProbabilityDistribution [] = [] := rfl

theorem nodup_all_eq_singleton {l : List ℚ} {t : ℚ} (hnd : l.Nodup)
    (hall : ∀ x ∈ l, x = t) (hmem : t ∈ l) : l = [t] := by
  cases l with
  | nil => exact absurd hmem (by simp)
  | cons a rest =>
    have ha : a = t := hall a (by simp)
    subst ha
    have hrest : rest = [] := by
      by_contra hne
      obtain ⟨x, hx⟩ := List.exists_mem_of_ne_nil rest hne
      have hxa : x = a := hall x (List.mem_cons_of_mem a hx)
      rw [List.nodup_cons] at hnd
      exact hnd.1 (hxa ▸ hx)
    rw [hrest]

theorem normalizeLines_single {lines : List Line} {t : ℚ} (hne : lines ≠ [])
    (hall : ∀ l ∈ lines, l.line = t) :
    ∃ p, normalizeLines lines = [⟨t, p⟩] := by
  have hkeys : (lineGroups lines).map Prod.fst = [t] := by
    apply nodup_all_eq_singleton (keys_groupByLine_nodup distUpdate lines)
    · intro x hx
      obtain ⟨l, hl, hlx⟩ := (mem_keys_groupByLine _ _ _).1 hx
      rw [← hlx]
      exact hall l hl
    · obtain ⟨l, hl⟩ := List.exists_mem_of_ne_nil lines hne
      exact (mem_keys_groupByLine _ _ _).2 ⟨l, hl, hall l hl⟩
  obtain ⟨g, hg⟩ : ∃ g, lineGroups lines = [(t, g)] := by
    cases hlg : lineGroups lines with
    | nil => rw [hlg] at hkeys; exact absurd hkeys (by simp)
    | cons e rest =>
      rw [hlg] at hkeys
      simp only [List.map_cons] at hkeys
      have h1 : e.1 = t := by injection hkeys
      have h2 : rest.map Prod.fst = [] := by injection hkeys
      have hrest : rest = [] := List.map_eq_nil_iff.1 h2
      refine ⟨e.2, ?_⟩
      rw [hrest]
      obtain ⟨a, b⟩ := e
      simp only at h1
      rw [h1]
  have hmem : (t, g) ∈ lineGroups lines := by rw [hg]; exact List.mem_cons_self _ _
  obtain ⟨p, hp⟩ := Option.isSome_iff_exists.1 (lineGroups_entry hmem).2
  refine ⟨p, ?_⟩
  rw [normalizeLines, hg]
  simp [toNormalized, List.filterMap_cons, hp, sortByKey, insertByKey]

/-- C7: the engine returns `[]` exactly on empty input, and an input whose
lines all sit at one threshold `t` produces exactly two ranges: the bottom
tail at `⌊t⌋` with probability `1 - p` and the top tail at `⌈t⌉` with
probability `p`, where `p` is the threshold's normalized over-probability —
no interior slice. -/
theorem c7_empty_and_single_threshold (lines : List Line) (t : ℚ) :
    (calculateProbabilityDistribution lines = [] ↔ lines = []) ∧
    (lines ≠ [] → (∀ l ∈ lines, l.line = t) →
      ∃ p, normalizeLines lines = [⟨t, p⟩] ∧
        calculateProbabilityDistribution lines =
          [{ label := s!"≤{(⌊t⌋ : ℤ)}", probability := 1 - p
             min := none, max := some ⌊t⌋ },
           { label := s!"≥{(⌈t⌉ : ℤ)}", probability := p
             min := some ⌈t⌉, max := none }]) := by
  constructor
  · constructor
    · intro hcalc
      by_contra hne
      cases hnl : normalizeLines lines with
      | nil => exact normalizeLines_ne_nil hne hnl
      | cons lowest rest =>
        rw [calc_eq_cons hne hnl] at hcalc
        exact absurd hcalc (by simp)
    · intro he
      rw [he]
      exact calc_nil
  · intro hne hall
    obtain ⟨p, hp⟩ := normalizeLines_single hne hall
    refine ⟨p, hp, ?_⟩
    rw [calc_eq_cons hne hp]
    simp [middleRanges, List.getLastD_nil]

theorem middleRanges_length (ns : List NormalizedLine) :
    (middleRanges ns).length = ns.length - 1 := by
  induction ns with
  | nil => rfl
  | cons a tl ih =>
    cases tl with
    | nil => rfl
    | cons b rest =>
      simp only [middleRanges, List.length_cons]
      rw [ih]
      simp

theorem middleRanges_getElem {ns : List NormalizedLine} {p : ℕ} {r : OutcomeRange}
    (h : (middleRanges ns)[p]? = some r) :
    ∃ cur next, ns[p]? = some cur ∧ ns[p+1]? = some next ∧
      r.probability = cur.overProbability - next.overProbability ∧
      r.min = some ⌈cur.line⌉ ∧ r.max = some ⌊next.line⌋ := by
  induction ns generalizing p with
  | nil => simp [middleRanges] at h
  | cons a tl ih =>
    cases tl with
    | nil => simp [middleRanges] at h
    | cons b rest =>
      simp only [middleRanges] at h
      cases p with
      | zero =>
        rw [List.getElem?_cons_zero] at h
        injection h with hr
        refine ⟨a, b, rfl, by simp, ?_⟩
        by_cases hc : (⌈a.line⌉ : ℤ) = ⌊b.line⌋
        · rw [← hr, if_pos hc]
          exact ⟨rfl, rfl, by rw [hc]⟩
        · rw [← hr, if_neg hc]
          exact ⟨rfl, rfl, rfl⟩
      | succ q =>
        rw [List.getElem?_cons_succ] at h
        obtain ⟨cur, next, h1, h2, h3⟩ := ih h
        exact ⟨cur, next, by rw [List.getElem?_cons_succ]; exact h1,
          by rw [List.getElem?_cons_succ]; exact h2, h3⟩

/-- C6: on any non-empty input — monotonic or not, inverted bounds or not —
the engine still returns the full list of ranges (one per normalized
threshold plus the bottom tail), with each interior range's probability the
raw difference `cur - next` (negative values emitted as-is) and its bounds
the raw `⌈cur.line⌉` / `⌊next.line⌋` (inverted bounds emitted without
clamping or skipping). -/
theorem c6_total_and_unclamped (lines : List Line) (h : lines ≠ []) :
    (calculateProbabilityDistribution lines).length = (normalizeLines lines).length + 1 ∧
    ∀ (i : ℕ) (cur next : NormalizedLine),
      (normalizeLines lines)[i]? = some cur →
      (normalizeLines lines)[i+1]? = some next →
      ∃ r, (calculateProbabilityDistribution lines)[i+1]? = some r ∧
        r.probability = cur.overProbability - next.overProbability ∧
        r.min = some ⌈cur.line⌉ ∧ r.max = some ⌊next.line⌋ := by
  cases hnl : normalizeLines lines with
  | nil => exact absurd hnl (normalizeLines_ne_nil h)
  | cons lowest rest =>
    rw [calc_eq_cons h hnl]
    constructor
    · simp only [List.length_cons, List.length_append, middleRanges_length]
      simp
    · intro i cur next hcur hnext
      have hlen : i + 1 < (lowest :: rest).length := by
        by_contra hge
        push_neg at hge
        rw [List.getElem?_eq_none hge] at hnext
        exact absurd hnext (by simp)
      have hmlen : i < (middleRanges (lowest :: rest)).length := by
        rw [middleRanges_length]
        simp only [List.length_cons] at hlen ⊢
        omega
      have hr0 := List.getElem?_eq_getElem hmlen
      obtain ⟨cur', next', hc', hn', hprob, hmin, hmax⟩ := middleRanges_getElem hr0
      have hceq : cur' = cur := by
        rw [hcur] at hc'
        injection hc' with hh
        exact hh.symm
      have hneq : next' = next := by
        rw [hnext] at hn'
        injection hn' with hh
        exact hh.symm
      subst hceq hneq
      refine ⟨(middleRanges (lowest :: rest))[i], ?_, hprob, hmin, hmax⟩
      rw [List.getElem?_cons_succ, List.getElem?_append]
      rw [if_pos hmlen, hr0]

/-- Witness for C6 at a concrete malformed input: thresholds `28.2` and
`28.8` with increasing probabilities give a negative slice probability
`2/5 - 11/21 < 0` and inverted bounds `min = 29 > 28 = max`, both emitted
as-is. -/
theorem c6_total_and_unclamped_witness :
    ∃ r, (calculateProbabilityDistribution
        [⟨Direction.over, 28.2, 150⟩, ⟨Direction.over, 28.8, -110⟩])[1]? = some r ∧
      r.probability = 2/5 - 11/21 ∧ r.min = some 29 ∧ r.max = some 28 := by
  have h := (c6_total_and_unclamped
      [⟨Direction.over, 28.2, 150⟩, ⟨Direction.over, 28.8, -110⟩] (by simp)).2 0
      ⟨28.2, 2/5⟩ ⟨28.8, 11/21⟩
      (by norm_num [normalizeLines, lineGroups, groupByLine, insertKeyed, distUpdate,
        toNormalized, resolveGroup, sortByKey, insertByKey, oddsToImpliedProbability,
        List.filterMap_cons, List.foldl_cons, List.foldl_nil, List.map_cons])
      (by norm_num [normalizeLines, lineGroups, groupByLine, insertKeyed, distUpdate,
        toNormalized, resolveGroup, sortByKey, insertByKey, oddsToImpliedProbability,
        List.filterMap_cons, List.foldl_cons, List.foldl_nil, List.map_cons])
  obtain ⟨r, h1, h2, h3, h4⟩ := h
  refine ⟨r, h1, h2, ?_, ?_⟩
  · rw [h3]
    norm_num [Int.ceil_eq_iff]
  · rw [h4]
    norm_num [Int.floor_eq_iff]

/-! ## Partition of the integer outcomes (C1) -/

theorem ceil_eq_floor_add_one_of_den {q : ℚ} (h : q.den ≠ 1) :
    (⌈q⌉ : ℤ) = ⌊q⌋ + 1 := by
  have hne : ((⌊q⌋ : ℚ)) ≠ q := by
    intro heq
    apply h
    rw [← heq]
    exact Rat.den_intCast _
  have hlt : ((⌊q⌋ : ℚ)) < q := lt_of_le_of_ne (Int.floor_le q) hne
  have h1 : ⌊q⌋ < ⌈q⌉ := by
    rw [← Int.cast_lt (R := ℚ)]
    exact lt_of_lt_of_le hlt (Int.le_ceil q)
  exact le_antisymm (Int.ceil_le_floor_add_one q) (by omega)

theorem head_line_le_getLastD {a : NormalizedLine} {tl : List NormalizedLine}
    (h : List.Pairwise (fun x y : NormalizedLine => x.line < y.line) (a :: tl)) :
    a.line ≤ ((a :: tl).getLastD a).line := by
  induction tl generalizing a with
  | nil => simp [List.getLastD]
  | cons b rest ih =>
    obtain ⟨hhead, htl⟩ := List.pairwise_cons.1 h
    rw [List.getLastD_cons]
    exact le_trans (le_of_lt (hhead b (by simp))) (ih htl)

theorem sum_middleRanges :
    ∀ (tl : List NormalizedLine) (a : NormalizedLine),
      ((middleRanges (a :: tl)).map OutcomeRange.probability).sum =
        a.overProbability - ((a :: tl).getLastD a).overProbability := by
  intro tl
  induction tl with
  | nil => intro a; simp [middleRanges, List.getLastD]
  | cons b rest ih =>
    intro a
    have heq : (a :: b :: rest).getLastD a = (b :: rest).getLastD b := by
      simp only [List.getLastD_cons]
    rw [heq]
    by_cases hc : (⌈a.line⌉ : ℤ) = ⌊b.line⌋
    · simp only [middleRanges, if_pos hc, List.map_cons, List.sum_cons, ih b]
      ring
    · simp only [middleRanges, if_neg hc, List.map_cons, List.sum_cons, ih b]
      ring

theorem countP_middleRanges (n : ℤ) :
    ∀ (tl : List NormalizedLine) (a : NormalizedLine),
      (∀ e ∈ a :: tl, (e.line).den ≠ 1) →
      List.Pairwise (fun x y : NormalizedLine => x.line < y.line) (a :: tl) →
      (middleRanges (a :: tl)).countP (fun r => rangeContains r n) =
        if ⌊a.line⌋ < n ∧ n ≤ ⌊((a :: tl).getLastD a).line⌋ then 1 else 0 := by
  intro tl
  induction tl with
  | nil =>
    intro a _ _
    rw [show middleRanges [a] = [] from rfl, List.countP_nil]
    rw [List.getLastD_cons, List.getLastD_nil, if_neg (by omega)]
  | cons b rest ih =>
    intro a hden hsort
    obtain ⟨hhead, htl⟩ := List.pairwise_cons.1 hsort
    have hab : a.line < b.line := hhead b (by simp)
    have hdena : (a.line).den ≠ 1 := hden a (by simp)
    have hceila : (⌈a.line⌉ : ℤ) = ⌊a.line⌋ + 1 := ceil_eq_floor_add_one_of_den hdena
    have hblast : b.line ≤ ((b :: rest).getLastD b).line := head_line_le_getLastD htl
    have hfab : ⌊a.line⌋ ≤ ⌊b.line⌋ := Int.floor_le_floor hab.le
    have hfbl : ⌊b.line⌋ ≤ ⌊((b :: rest).getLastD b).line⌋ := Int.floor_le_floor hblast
    have hihv := ih b (fun e he => hden e (List.mem_cons_of_mem a he)) htl
    have heq : (a :: b :: rest).getLastD a = (b :: rest).getLastD b := by
      simp only [List.getLastD_cons]
    rw [heq]
    by_cases hc : (⌈a.line⌉ : ℤ) = ⌊b.line⌋
    · simp only [middleRanges, if_pos hc, List.countP_cons]
      rw [hihv]
      simp only [rangeContains, Bool.and_eq_true, decide_eq_true_eq]
      split_ifs <;> omega
    · simp only [middleRanges, if_neg hc, List.countP_cons]
      rw [hihv]
      simp only [rangeContains, Bool.and_eq_true, decide_eq_true_eq]
      split_ifs <;> omega

theorem getLastD_mem (d a : α) (tl : List α) : (a :: tl).getLastD d ∈ a :: tl := by
  induction tl generalizing d a with
  | nil => simp [List.getLastD]
  | cons b rest ih =>
    rw [List.getLastD_cons]
    exact List.mem_cons_of_mem a (ih a b)

theorem getElem?_last_getLastD (a : α) (tl : List α) :
    (a :: tl)[(a :: tl).length - 1]? = some ((a :: tl).getLastD a) := by
  rw [List.getLastD_eq_getLast?, ← List.getLast?_eq_getElem?]
  cases h : (a :: tl).getLast? with
  | none =>
    have : (a :: tl).getLast?.isSome = true := List.getLast?_isSome.2 (by simp)
    rw [h] at this
    exact absurd this (by simp)
  | some x => simp

theorem ns_line_mono {ns : List NormalizedLine}
    (hsort : List.Pairwise (fun x y : NormalizedLine => x.line < y.line) ns)
    {p q : ℕ} {cp cq : NormalizedLine} (hpq : p ≤ q)
    (hp : ns[p]? = some cp) (hq : ns[q]? = some cq) : cp.line ≤ cq.line := by
  rcases eq_or_lt_of_le hpq with heq | hlt
  · subst heq
    rw [hp] at hq
    injection hq with h
    rw [h]
  · have hqlen : q < ns.length := by
      by_contra hge
      push_neg at hge
      rw [List.getElem?_eq_none hge] at hq
      exact absurd hq (by simp)
    have hplen : p < ns.length := lt_trans hlt hqlen
    have hrel := List.pairwise_iff_get.1 hsort ⟨p, hplen⟩ ⟨q, hqlen⟩ (Fin.mk_lt_mk.2 hlt)
    rw [List.getElem?_eq_getElem hplen] at hp
    rw [List.getElem?_eq_getElem hqlen] at hq
    injection hp with hp2
    injection hq with hq2
    rw [← hp2, ← hq2]
    exact le_of_lt (by simpa [List.get_eq_getElem] using hrel)

/-- Counterexample to C1 as stated: a single line at the integer threshold
`29` has trivially strictly-decreasing normalized probabilities, yet the
integer `29` is covered by both the bottom tail (`max = ⌊29⌋ = 29`) and the
top tail (`min = ⌈29⌉ = 29`): it is counted twice, so the ranges do not
cover every integer exactly once. -/
theorem c1_integer_threshold_counterexample :
    List.Chain' (fun a b : NormalizedLine => b.overProbability < a.overProbability)
      (normalizeLines [⟨Direction.over, (29:ℚ), -110⟩]) ∧
    (calculateProbabilityDistribution [⟨Direction.over, (29:ℚ), -110⟩]).countP
      (fun r => rangeContains r 29) = 2 := by
  constructor
  · have h : normalizeLines [⟨Direction.over, (29:ℚ), -110⟩] =
        [⟨29, 11/21⟩] := by
      norm_num [normalizeLines, lineGroups, groupByLine, insertKeyed, distUpdate,
        toNormalized, resolveGroup, sortByKey, insertByKey, oddsToImpliedProbability,
        List.filterMap_cons, List.foldl_cons, List.foldl_nil, List.map_cons]
    rw [h]
    exact List.chain'_singleton _
  · norm_num [calculateProbabilityDistribution, normalizeLines, lineGroups,
      groupByLine, insertKeyed, distUpdate, toNormalized, resolveGroup, sortByKey,
      insertByKey, oddsToImpliedProbability, middleRanges, rangeContains,
      List.countP_cons, List.countP_nil, List.filterMap_cons, List.foldl_cons,
      List.foldl_nil, List.map_cons, List.getLastD_cons]

/-- Ascending-outcome-order of the constructed range list: with sorted
non-integer thresholds, an integer covered by an earlier range is strictly
below an integer covered by a later range.  `B` and `T` stand for the bottom
and top tails, of which only the bounds matter. -/
theorem calcList_ascending (lowest : NormalizedLine) (rest : List NormalizedLine)
    (B T : OutcomeRange)
    (hsort : List.Pairwise (fun x y : NormalizedLine => x.line < y.line) (lowest :: rest))
    (hden : ∀ e ∈ lowest :: rest, (e.line).den ≠ 1)
    (hBmax : B.max = some ⌊lowest.line⌋)
    (hTmin : T.min = some ⌈((lowest :: rest).getLastD lowest).line⌉) :
    ∀ (i j : ℕ) (ri rj : OutcomeRange) (m k : ℤ), i < j →
      (B :: (middleRanges (lowest :: rest) ++ [T]))[i]? = some ri →
      (B :: (middleRanges (lowest :: rest) ++ [T]))[j]? = some rj →
      rangeContains ri m = true → rangeContains rj k = true → m < k := by
  have hmlen : (middleRanges (lowest :: rest)).length = rest.length := by
    rw [middleRanges_length]
    simp
  have hupper : ∀ (p : ℕ) (r : OutcomeRange) (x : ℤ),
      p < (lowest :: rest).length →
      (B :: (middleRanges (lowest :: rest) ++ [T]))[p]? = some r →
      rangeContains r x = true →
      ∃ cur, (lowest :: rest)[p]? = some cur ∧ x ≤ ⌊cur.line⌋ := by
    intro p r x hp hr hc
    cases p with
    | zero =>
      rw [List.getElem?_cons_zero] at hr
      injection hr with hr2
      refine ⟨lowest, by simp, ?_⟩
      rw [← hr2] at hc
      simp only [rangeContains, hBmax, Bool.and_eq_true, decide_eq_true_eq] at hc
      exact hc.2
    | succ q =>
      rw [List.getElem?_cons_succ] at hr
      have hq : q < (middleRanges (lowest :: rest)).length := by
        rw [hmlen]
        simp only [List.length_cons] at hp
        omega
      rw [List.getElem?_append, if_pos hq] at hr
      obtain ⟨cur2, next2, _, hn2, _, _, hmax⟩ := middleRanges_getElem hr
      refine ⟨next2, hn2, ?_⟩
      simp only [rangeContains, hmax, Bool.and_eq_true, decide_eq_true_eq] at hc
      exact hc.2
  have hlower : ∀ (p : ℕ) (r : OutcomeRange) (x : ℤ),
      (B :: (middleRanges (lowest :: rest) ++ [T]))[p + 1]? = some r →
      rangeContains r x = true →
      ∃ cur, (lowest :: rest)[p]? = some cur ∧ ⌊cur.line⌋ < x := by
    intro p r x hr hc
    rw [List.getElem?_cons_succ] at hr
    by_cases hq : p < (middleRanges (lowest :: rest)).length
    · rw [List.getElem?_append, if_pos hq] at hr
      obtain ⟨cur2, next2, hc2, _, _, hmin, _⟩ := middleRanges_getElem hr
      refine ⟨cur2, hc2, ?_⟩
      simp only [rangeContains, hmin, Bool.and_eq_true, decide_eq_true_eq] at hc
      have hcden : (cur2.line).den ≠ 1 := hden cur2 (List.getElem?_mem hc2)
      have := ceil_eq_floor_add_one_of_den hcden
      omega
    · push_neg at hq
      rcases eq_or_lt_of_le hq with heq | hlt2
      · -- p = M.length: the range is the top tail
        have hr2 : (middleRanges (lowest :: rest) ++ [T])[p]? = some T := by
          rw [← heq, List.getElem?_concat_length]
        rw [hr2] at hr
        injection hr with hr3
        have hp2 : p = (lowest :: rest).length - 1 := by
          rw [← heq, hmlen]
          simp
        refine ⟨(lowest :: rest).getLastD lowest, ?_, ?_⟩
        · rw [hp2]
          exact getElem?_last_getLastD lowest rest
        · rw [← hr3] at hc
          simp only [rangeContains, hTmin, Bool.and_eq_true, decide_eq_true_eq] at hc
          have hLden : ((((lowest :: rest).getLastD lowest)).line).den ≠ 1 :=
            hden _ (getLastD_mem lowest lowest rest)
          have := ceil_eq_floor_add_one_of_den hLden
          omega
      · have : (middleRanges (lowest :: rest) ++ [T]).length ≤ p := by
          simp only [List.length_append, List.length_cons, List.length_nil]
          omega
        rw [List.getElem?_eq_none this] at hr
        exact absurd hr (by simp)
  intro i j ri rj m k hij hri hrj hcm hck
  cases j with
  | zero => exact absurd hij (by omega)
  | succ jq =>
    obtain ⟨curj, hcj, hlb⟩ := hlower jq rj k hrj hck
    have hjlen : jq < (lowest :: rest).length := by
      by_contra hge
      push_neg at hge
      rw [List.getElem?_eq_none hge] at hcj
      exact absurd hcj (by simp)
    have hilen : i < (lowest :: rest).length := by omega
    obtain ⟨curi, hci, hub⟩ := hupper i ri m hilen hri hcm
    have hmono2 : curi.line ≤ curj.line := ns_line_mono hsort (by omega) hci hcj
    have hfmono : ⌊curi.line⌋ ≤ ⌊curj.line⌋ := Int.floor_le_floor hmono2
    omega

/-- C1 (amended): for a non-empty line set whose thresholds are not integers
(the half-integer convention of the spec) and whose normalized
over-probabilities strictly decrease as the threshold increases, the
returned ranges' probabilities sum to exactly 1, every integer outcome is
covered by exactly one range (no gap, no overlap), and the ranges are in
ascending outcome order: any integer covered by an earlier range is strictly
below any integer covered by a later range. -/
theorem c1_partition_amended (lines : List Line) (hne : lines ≠ [])
    (hden : ∀ l ∈ lines, (l.line).den ≠ 1)
    (hmono : List.Chain' (fun a b : NormalizedLine =>
      b.overProbability < a.overProbability) (normalizeLines lines)) :
    ((calculateProbabilityDistribution lines).map OutcomeRange.probability).sum = 1 ∧
    (∀ n : ℤ, (calculateProbabilityDistribution lines).countP
      (fun r => rangeContains r n) = 1) ∧
    (∀ (i j : ℕ) (ri rj : OutcomeRange) (m k : ℤ), i < j →
      (calculateProbabilityDistribution lines)[i]? = some ri →
      (calculateProbabilityDistribution lines)[j]? = some rj →
      rangeContains ri m = true → rangeContains rj k = true → m < k) := by
  cases hnl : normalizeLines lines with
  | nil => exact absurd hnl (normalizeLines_ne_nil hne)
  | cons lowest rest =>
    have hsort := normalizeLines_sorted lines
    rw [hnl] at hsort
    have hdenN : ∀ e ∈ lowest :: rest, (e.line).den ≠ 1 := by
      intro e he
      rw [← hnl] at he
      obtain ⟨g, hg, _⟩ := mem_normalizeLines.1 he
      obtain ⟨l, hl, hlt⟩ := (mem_keys_groupByLine distUpdate lines e.line).1
        (List.mem_map.2 ⟨(e.line, g), hg, rfl⟩)
      rw [← hlt]
      exact hden l hl
    have hLden : (((lowest :: rest).getLastD lowest).line).den ≠ 1 :=
      hdenN _ (getLastD_mem lowest lowest rest)
    have hceilL : (⌈((lowest :: rest).getLastD lowest).line⌉ : ℤ) =
        ⌊((lowest :: rest).getLastD lowest).line⌋ + 1 :=
      ceil_eq_floor_add_one_of_den hLden
    have hfl : ⌊lowest.line⌋ ≤ ⌊((lowest :: rest).getLastD lowest).line⌋ :=
      Int.floor_le_floor (head_line_le_getLastD hsort)
    rw [calc_eq_cons hne hnl]
    refine ⟨?_, ?_, ?_⟩
    · simp only [List.map_cons, List.map_append, List.sum_cons, List.sum_append]
      rw [sum_middleRanges rest lowest]
      simp only [List.map_cons, List.map_nil, List.sum_cons, List.sum_nil]
      ring
    · intro n
      rw [List.countP_cons, List.countP_append]
      rw [countP_middleRanges n rest lowest hdenN hsort]
      simp [List.countP_cons, List.countP_nil, rangeContains, Bool.and_eq_true,
        decide_eq_true_eq]
      rw [List.getLastD_eq_getLast?] at hceilL hfl
      split_ifs <;> omega
    · exact calcList_ascending lowest rest _ _ hsort hdenN rfl rfl

theorem den_ne_one_of_floor_ne {q : ℚ} (h : ((⌊q⌋ : ℚ)) ≠ q) : q.den ≠ 1 := by
  intro hden
  apply h
  have h2 : ((q.num : ℚ)) = q := (Rat.den_eq_one_iff q).1 hden
  rw [← h2, Int.floor_intCast]

/-- Witness for the amended C1 at the spec's own example input
`[Over 28.5 @ -110, Over 29.5 @ +150]`. -/
theorem c1_partition_amended_witness :
    (([⟨Direction.over, 28.5, -110⟩, ⟨Direction.over, 29.5, 150⟩] : List Line) ≠ [] ∧
      ∀ l ∈ ([⟨Direction.over, 28.5, -110⟩, ⟨Direction.over, 29.5, 150⟩] : List Line),
        (l.line).den ≠ 1) ∧
    ((calculateProbabilityDistribution
        [⟨Direction.over, 28.5, -110⟩, ⟨Direction.over, 29.5, 150⟩]).map
      OutcomeRange.probability).sum = 1 ∧
    (∀ n : ℤ, (calculateProbabilityDistribution
        [⟨Direction.over, 28.5, -110⟩, ⟨Direction.over, 29.5, 150⟩]).countP
      (fun r => rangeContains r n) = 1) ∧
    (∀ (i j : ℕ) (ri rj : OutcomeRange) (m k : ℤ), i < j →
      (calculateProbabilityDistribution
        [⟨Direction.over, 28.5, -110⟩, ⟨Direction.over, 29.5, 150⟩])[i]? = some ri →
      (calculateProbabilityDistribution
        [⟨Direction.over, 28.5, -110⟩, ⟨Direction.over, 29.5, 150⟩])[j]? = some rj →
      rangeContains ri m = true → rangeContains rj k = true → m < k) := by
  have hden : ∀ l ∈ ([⟨Direction.over, 28.5, -110⟩, ⟨Direction.over, 29.5, 150⟩] :
      List Line), (l.line).den ≠ 1 := by
    intro l hl
    rcases List.mem_cons.1 hl with h | h
    · rw [h]
      apply den_ne_one_of_floor_ne
      have hf : (⌊(28.5:ℚ)⌋ : ℤ) = 28 := by rw [Int.floor_eq_iff] ; norm_num
      rw [hf]
      norm_num
    · rcases List.mem_cons.1 h with h2 | h2
      · rw [h2]
        apply den_ne_one_of_floor_ne
        have hf : (⌊(29.5:ℚ)⌋ : ℤ) = 29 := by rw [Int.floor_eq_iff] ; norm_num
        rw [hf]
        norm_num
      · exact absurd h2 (by simp)
  have hmono : List.Chain' (fun a b : NormalizedLine =>
      b.overProbability < a.overProbability)
      (normalizeLines [⟨Direction.over, 28.5, -110⟩, ⟨Direction.over, 29.5, 150⟩]) := by
    have hn : normalizeLines [⟨Direction.over, 28.5, -110⟩, ⟨Direction.over, 29.5, 150⟩] =
        [⟨28.5, 11/21⟩, ⟨29.5, 2/5⟩] := by
      norm_num [normalizeLines, lineGroups, groupByLine, insertKeyed, distUpdate,
        toNormalized, resolveGroup, sortByKey, insertByKey, oddsToImpliedProbability,
        List.filterMap_cons, List.foldl_cons, List.foldl_nil, List.map_cons]
    rw [hn]
    norm_num [List.chain'_cons, List.chain'_singleton]
  exact ⟨⟨by simp, hden⟩,
    c1_partition_amended [⟨Direction.over, 28.5, -110⟩, ⟨Direction.over, 29.5, 150⟩]
      (by simp) hden hmono⟩

/-! ## The validator's checks (C5, C8) -/

theorem monotonicityIssues_count (ns : List VNorm) :
    (monotonicityIssues ns).countP
        (fun i => decide (i.type = IssueType.contradictory_probabilities) &&
          decide (i.severity = Severity.error)) =
      (ns.zip ns.tail).countP
        (fun p => decide (p.1.line ≠ p.2.line) &&
          decide (p.1.overProbability < p.2.overProbability)) := by
  induction ns with
  | nil => rfl
  | cons cur tl ih =>
    cases tl with
    | nil => rfl
    | cons next rest =>
      simp only [monotonicityIssues, List.countP_append, List.zip_cons_cons,
        List.tail_cons, List.countP_cons] at ih ⊢
      by_cases hline : cur.line = next.line
      · simp [hline, ih]
      · by_cases hlt : cur.overProbability < next.overProbability
        · simp [hline, hlt, ih]
          omega
        · simp [hline, hlt, ih]

theorem proximityIssues_mem (ns : List VNorm) :
    ∀ i ∈ proximityIssues ns,
      i.type = IssueType.contradictory_probabilities ∧
        i.severity = Severity.warning := by
  induction ns with
  | nil => intro i hi; exact absurd hi (by simp [proximityIssues])
  | cons cur tl ih =>
    cases tl with
    | nil => intro i hi; exact absurd hi (by simp [proximityIssues])
    | cons next rest =>
      intro i hi
      simp only [proximityIssues] at hi
      rcases List.mem_append.1 hi with h | h
      · by_cases hc : 0 < next.line - cur.line ∧ next.line - cur.line < 1
        · rw [if_pos hc] at h
          rcases List.mem_cons.1 h with h2 | h2
          · rw [h2]; exact ⟨rfl, rfl⟩
          · exact absurd h2 (by simp)
        · rw [if_neg hc] at h
          exact absurd h (by simp)
      · exact ih i h

theorem negativeSliceIssues_mem (ns : List VNorm) :
    ∀ i ∈ negativeSliceIssues ns,
      i.type = IssueType.negative_probability ∧ i.severity = Severity.error := by
  induction ns with
  | nil => intro i hi; exact absurd hi (by simp [negativeSliceIssues])
  | cons cur tl ih =>
    cases tl with
    | nil => intro i hi; exact absurd hi (by simp [negativeSliceIssues])
    | cons next rest =>
      intro i hi
      simp only [negativeSliceIssues] at hi
      rcases List.mem_append.1 hi with h | h
      · by_cases hline : cur.line = next.line
        · rw [if_pos hline] at h
          exact absurd h (by simp)
        · rw [if_neg hline] at h
          by_cases hneg : cur.overProbability - next.overProbability < 0
          · rw [if_pos hneg] at h
            rcases List.mem_cons.1 h with h2 | h2
            · rw [h2]; exact ⟨rfl, rfl⟩
            · exact absurd h2 (by simp)
          · rw [if_neg hneg] at h
            exact absurd h (by simp)
      · exact ih i h

theorem monotonicityIssues_mem (ns : List VNorm) :
    ∀ i ∈ monotonicityIssues ns,
      i.type = IssueType.contradictory_probabilities ∧
        i.severity = Severity.error := by
  induction ns with
  | nil => intro i hi; exact absurd hi (by simp [monotonicityIssues])
  | cons cur tl ih =>
    cases tl with
    | nil => intro i hi; exact absurd hi (by simp [monotonicityIssues])
    | cons next rest =>
      intro i hi
      simp only [monotonicityIssues] at hi
      rcases List.mem_append.1 hi with h | h
      · by_cases hline : cur.line = next.line
        · rw [if_pos hline] at h
          exact absurd h (by simp)
        · rw [if_neg hline] at h
          by_cases hlt : cur.overProbability < next.overProbability
          · rw [if_pos hlt] at h
            rcases List.mem_cons.1 h with h2 | h2
            · rw [h2]; exact ⟨rfl, rfl⟩
            · exact absurd h2 (by simp)
          · rw [if_neg hlt] at h
            exact absurd h (by simp)
      · exact ih i h

theorem vigCheck_severity {g : PairGroup} {i : ValidationIssue}
    (h : vigCheck g = some i) : i.severity = Severity.info := by
  unfold vigCheck at h
  cases hover : g.over with
  | none => rw [hover] at h; exact absurd h (by simp)
  | some lo =>
    cases hunder : g.under with
    | none => rw [hover, hunder] at h; exact absurd h (by simp)
    | some lu =>
      rw [hover, hunder] at h
      simp only at h
      split_ifs at h
      · injection h with h2; rw [← h2]
      · injection h with h2; rw [← h2]

theorem vigArbIssues_mem (lines : List Line) :
    ∀ i ∈ vigArbIssues lines, i.severity = Severity.info := by
  intro i hi
  obtain ⟨e, _, hfe⟩ := List.mem_filterMap.1 hi
  exact vigCheck_severity hfe

theorem validateLines_issues (lines : List Line) (h : ¬ lines.isEmpty = true) :
    (validateLines lines).issues =
      monotonicityIssues (vSorted lines) ++ proximityIssues (vSorted lines)
        ++ negativeSliceIssues (vSorted lines) ++ vigArbIssues lines := by
  simp [validateLines, h]

/-- C5: the validator's error-severity "contradictory_probabilities" issues
are exactly one per adjacent pair of the sorted per-line normalization whose
threshold differs and whose over-probability strictly increases; adjacent
pairs at the same threshold are skipped and non-increasing pairs produce no
such issue.  (The proximity check also emits "contradictory_probabilities"
but only at warning severity, so counting error-severity issues isolates the
monotonicity check.) -/
theorem c5_monotonicity_errors (lines : List Line) :
    (validateLines lines).issues.countP
        (fun i => decide (i.type = IssueType.contradictory_probabilities) &&
          decide (i.severity = Severity.error)) =
      ((vSorted lines).zip (vSorted lines).tail).countP
        (fun p => decide (p.1.line ≠ p.2.line) &&
          decide (p.1.overProbability < p.2.overProbability)) := by
  by_cases hemp : lines.isEmpty = true
  · have hl : lines = [] := List.isEmpty_iff.1 hemp
    subst hl
    rfl
  · rw [validateLines_issues lines hemp]
    rw [List.countP_append, List.countP_append, List.countP_append]
    have hp0 : (proximityIssues (vSorted lines)).countP
        (fun i => decide (i.type = IssueType.contradictory_probabilities) &&
          decide (i.severity = Severity.error)) = 0 := by
      rw [List.countP_eq_zero]
      intro i hi
      obtain ⟨_, hsev⟩ := proximityIssues_mem _ i hi
      simp [hsev]
    have hn0 : (negativeSliceIssues (vSorted lines)).countP
        (fun i => decide (i.type = IssueType.contradictory_probabilities) &&
          decide (i.severity = Severity.error)) = 0 := by
      rw [List.countP_eq_zero]
      intro i hi
      obtain ⟨htype, _⟩ := negativeSliceIssues_mem _ i hi
      simp [htype]
    have hv0 : (vigArbIssues lines).countP
        (fun i => decide (i.type = IssueType.contradictory_probabilities) &&
          decide (i.severity = Severity.error)) = 0 := by
      rw [List.countP_eq_zero]
      intro i hi
      have hsev := vigArbIssues_mem lines i hi
      simp [hsev]
    rw [hp0, hn0, hv0, monotonicityIssues_count]
    omega

/-- C8: for each distinct threshold (in first-occurrence order, with no
duplicates) at which both an Over and an Under line are present, the
validator emits exactly one issue from the raw-odds total
`P(over) + P(under)` of the last line of each direction: a `vig` info issue
with margin `total - 1` when `total > 1`, an `arbitrage` info issue with
margin `1 - total` when `total < 1`, and nothing when `total = 1`; and no
vig/arbitrage-typed issue anywhere in the result carries a severity other
than `info`. -/
theorem c8_vig_arbitrage (lines : List Line) :
    vigArbIssues lines =
      (distinctThresholds lines).filterMap (fun t =>
        match lastLineAt lines t Direction.over, lastLineAt lines t Direction.under with
        | some lo, some lu =>
          let total := oddsToImpliedProbability lo.odds + oddsToImpliedProbability lu.odds
          if 1 < total then
            some { type := IssueType.vig, severity := Severity.info
                   margin := some (total - 1) }
          else if total < 1 then
            some { type := IssueType.arbitrage, severity := Severity.info
                   margin := some (1 - total) }
          else none
        | _, _ => none) ∧
    (distinctThresholds lines).Nodup ∧
    (∀ t : ℚ, t ∈ distinctThresholds lines ↔ ∃ l ∈ lines, l.line = t) ∧
    (∀ i ∈ (validateLines lines).issues,
      i.type = IssueType.vig ∨ i.type = IssueType.arbitrage →
        i.severity = Severity.info) := by
  refine ⟨?_, keys_groupByLine_nodup vigUpdate lines,
    fun t => mem_keys_groupByLine vigUpdate lines t, ?_⟩
  · simp only [vigArbIssues, distinctThresholds, vigGroups, List.filterMap_map]
    apply List.filterMap_congr
    intro e he
    have hex : ∃ l ∈ lines, l.line = e.1 :=
      (mem_keys_groupByLine vigUpdate lines e.1).1 (List.mem_map.2 ⟨e, he, rfl⟩)
    have hfind := findValue_of_mem_nodup (keys_groupByLine_nodup vigUpdate lines) he
    have hcomb : some e.2 = some { over := lastLineAt lines e.1 Direction.over
                                   under := lastLineAt lines e.1 Direction.under } :=
      hfind.symm.trans (findValue_vigGroups hex)
    have hval : e.2 = { over := lastLineAt lines e.1 Direction.over
                        under := lastLineAt lines e.1 Direction.under } := by
      injection hcomb
    show vigCheck e.2 = _
    simp only [Function.comp_apply]
    rw [hval]
    cases lastLineAt lines e.1 Direction.over <;>
      cases lastLineAt lines e.1 Direction.under <;> rfl
  · by_cases hemp : lines.isEmpty = true
    · intro i hi
      simp [validateLines, hemp] at hi
    · intro i hi htype
      rw [validateLines_issues lines hemp] at hi
      rcases List.mem_append.1 hi with h123 | h4
      · rcases List.mem_append.1 h123 with h12 | h3
        · rcases List.mem_append.1 h12 with h1 | h2
          · have := (monotonicityIssues_mem _ i h1).1
            rcases htype with ht | ht <;> rw [this] at ht <;> simp at ht
          · have := (proximityIssues_mem _ i h2).1
            rcases htype with ht | ht <;> rw [this] at ht <;> simp at ht
        · have := (negativeSliceIssues_mem _ i h3).1
          rcases htype with ht | ht <;> rw [this] at ht <;> simp at ht
      · exact vigArbIssues_mem lines i h4

/-! ## Duplicate lines: only the last occurrence counts (C10) -/

theorem dedupKeepLast_eq_nil_iff (ls : List Line) :
    dedupKeepLast ls = [] ↔ ls = [] := by
  induction ls with
  | nil => simp [dedupKeepLast]
  | cons l rest ih =>
    simp only [dedupKeepLast]
    by_cases hc : rest.any (fun l2 =>
        decide (l2.line = l.line) && decide (l2.direction = l.direction)) = true
    · rw [if_pos hc]
      constructor
      · intro h
        rw [ih.1 h] at hc
        exact absurd hc (by simp)
      · intro h
        exact absurd h (by simp)
    · rw [if_neg hc]
      simp

theorem lastLineAt_dedupKeepLast (ls : List Line) (t : ℚ) (d : Direction) :
    lastLineAt (dedupKeepLast ls) t d = lastLineAt ls t d := by
  induction ls with
  | nil => rfl
  | cons l rest ih =>
    simp only [dedupKeepLast]
    by_cases hc : rest.any (fun l2 =>
        decide (l2.line = l.line) && decide (l2.direction = l.direction)) = true
    · rw [if_pos hc, ih]
      by_cases hmatch : l.line = t ∧ l.direction = d
      · have hl2 : ∃ l2 ∈ rest, l2.line = t ∧ l2.direction = d := by
          obtain ⟨l2, hl2, hb⟩ := List.any_eq_true.1 hc
          simp only [Bool.and_eq_true, decide_eq_true_eq] at hb
          exact ⟨l2, hl2, hb.1.trans hmatch.1, hb.2.trans hmatch.2⟩
        have hne : linesAt rest t d ≠ [] := by
          rw [ne_eq, linesAt, List.filter_eq_nil_iff]
          push_neg
          obtain ⟨l2, hl2, h1, h2⟩ := hl2
          exact ⟨l2, hl2, by simp [h1, h2]⟩
        have hcons : linesAt (l :: rest) t d = l :: linesAt rest t d := by
          rw [linesAt, List.filter_cons]
          rw [if_pos (by simp [hmatch.1, hmatch.2])]
          rfl
        simp only [lastLineAt]
        rw [hcons, List.getLast?_cons]
        cases hlast : (linesAt rest t d).getLast? with
        | none =>
          have := List.getLast?_isSome.2 hne
          rw [hlast] at this
          exact absurd this (by simp)
        | some x => rfl
      · have hcons : linesAt (l :: rest) t d = linesAt rest t d := by
          rw [linesAt, List.filter_cons]
          rw [if_neg (by
            simp only [Bool.and_eq_true, decide_eq_true_eq]
            exact hmatch)]
          rfl
        simp only [lastLineAt]
        rw [hcons]
    · rw [if_neg hc]
      by_cases hmatch : l.line = t ∧ l.direction = d
      · have hcons1 : linesAt (l :: dedupKeepLast rest) t d =
            l :: linesAt (dedupKeepLast rest) t d := by
          rw [linesAt, List.filter_cons, if_pos (by simp [hmatch.1, hmatch.2])]
          rfl
        have hcons2 : linesAt (l :: rest) t d = l :: linesAt rest t d := by
          rw [linesAt, List.filter_cons, if_pos (by simp [hmatch.1, hmatch.2])]
          rfl
        rw [lastLineAt, hcons1, List.getLast?_cons, lastLineAt, hcons2,
          List.getLast?_cons]
        have hih : (linesAt (dedupKeepLast rest) t d).getLast? =
            (linesAt rest t d).getLast? := ih
        rw [hih]
      · have hcons1 : linesAt (l :: dedupKeepLast rest) t d =
            linesAt (dedupKeepLast rest) t d := by
          rw [linesAt, List.filter_cons, if_neg (by
            simp only [Bool.and_eq_true, decide_eq_true_eq]
            exact hmatch)]
          rfl
        have hcons2 : linesAt (l :: rest) t d = linesAt rest t d := by
          rw [linesAt, List.filter_cons, if_neg (by
            simp only [Bool.and_eq_true, decide_eq_true_eq]
            exact hmatch)]
          rfl
        rw [lastLineAt, hcons1, lastLineAt, hcons2]
        exact ih

theorem exists_line_iff_lastLineAt (ls : List Line) (t : ℚ) :
    (∃ l ∈ ls, l.line = t) ↔
      (lastLineAt ls t Direction.over ≠ none ∨
        lastLineAt ls t Direction.under ≠ none) := by
  constructor
  · intro h
    rcases lastLineAt_cases h with hc | hc
    · exact Or.inl (Option.isSome_iff_ne_none.1 hc)
    · exact Or.inr (Option.isSome_iff_ne_none.1 hc)
  · have haux : ∀ d : Direction, lastLineAt ls t d ≠ none → ∃ l ∈ ls, l.line = t := by
      intro d hd
      have hne : linesAt ls t d ≠ [] := by
        intro h0
        apply hd
        rw [lastLineAt, h0]
        rfl
      obtain ⟨l, hl⟩ := List.exists_mem_of_ne_nil _ hne
      obtain ⟨hmem, hp⟩ := List.mem_filter.1 hl
      simp only [Bool.and_eq_true, decide_eq_true_eq] at hp
      exact ⟨l, hmem, hp.1⟩
    rintro (hc | hc)
    · exact haux Direction.over hc
    · exact haux Direction.under hc

theorem exists_line_dedup_iff (ls : List Line) (t : ℚ) :
    (∃ l ∈ dedupKeepLast ls, l.line = t) ↔ ∃ l ∈ ls, l.line = t := by
  rw [exists_line_iff_lastLineAt, exists_line_iff_lastLineAt,
    lastLineAt_dedupKeepLast, lastLineAt_dedupKeepLast]

theorem findValue_lineGroups_dedup (ls : List Line) (t : ℚ) :
    findValue (lineGroups (dedupKeepLast ls)) t = findValue (lineGroups ls) t := by
  by_cases hex : ∃ l ∈ ls, l.line = t
  · have hex2 : ∃ l ∈ dedupKeepLast ls, l.line = t := (exists_line_dedup_iff ls t).2 hex
    rw [findValue_lineGroups hex2, findValue_lineGroups hex]
    simp only [lastProbAt, lastLineAt_dedupKeepLast]
  · have hex2 : ¬ ∃ l ∈ dedupKeepLast ls, l.line = t :=
      fun h => hex ((exists_line_dedup_iff ls t).1 h)
    rw [lineGroups, lineGroups]
    rw [findValue_groupByLine_none distUpdate hex2, findValue_groupByLine_none distUpdate hex]

theorem mem_assoc_iff_findValue {acc : List (ℚ × β)}
    (hnd : (acc.map Prod.fst).Nodup) (e : ℚ × β) :
    e ∈ acc ↔ findValue acc e.1 = some e.2 :=
  ⟨findValue_of_mem_nodup hnd, fun h => mem_of_findValue h⟩

theorem lineGroups_dedup_perm (ls : List Line) :
    List.Perm (lineGroups (dedupKeepLast ls)) (lineGroups ls) := by
  apply (List.perm_ext_iff_of_nodup
    (List.Nodup.of_map Prod.fst (keys_groupByLine_nodup distUpdate (dedupKeepLast ls)))
    (List.Nodup.of_map Prod.fst (keys_groupByLine_nodup distUpdate ls))).2
  intro e
  rw [mem_assoc_iff_findValue (keys_groupByLine_nodup distUpdate (dedupKeepLast ls)) e,
    mem_assoc_iff_findValue (keys_groupByLine_nodup distUpdate ls) e]
  have hfv := findValue_lineGroups_dedup ls e.1
  rw [lineGroups, lineGroups] at hfv
  rw [hfv]

theorem normalizeLines_dedup (ls : List Line) :
    normalizeLines (dedupKeepLast ls) = normalizeLines ls := by
  haveI : IsAntisymm NormalizedLine (fun a b => a.line < b.line) :=
    ⟨fun a b h1 h2 => absurd (lt_trans h1 h2) (lt_irrefl _)⟩
  have h2 := (lineGroups_dedup_perm ls).filterMap
    (fun e => (resolveGroup e.2).map (fun p => (⟨e.1, p⟩ : NormalizedLine)))
  exact List.eq_of_perm_of_sorted
    ((normalizeLines_perm (dedupKeepLast ls)).trans
      (h2.trans (normalizeLines_perm ls).symm))
    (normalizeLines_sorted _) (normalizeLines_sorted _)

/-- C10: duplicate (threshold, direction) lines are resolved by overwriting,
so the distribution of any list equals the distribution of the list that
keeps only the last line of each (threshold, direction) class. -/
theorem c10_duplicate_overwrite (lines : List Line) :
    calculateProbabilityDistribution (dedupKeepLast lines) =
      calculateProbabilityDistribution lines := by
  by_cases hne : lines = []
  · subst hne
    rfl
  · have hd : dedupKeepLast lines ≠ [] :=
      fun h => hne ((dedupKeepLast_eq_nil_iff lines).1 h)
    cases hnl : normalizeLines lines with
    | nil => exact absurd hnl (normalizeLines_ne_nil hne)
    | cons lowest rest =>
      have hnl2 : normalizeLines (dedupKeepLast lines) = lowest :: rest := by
        rw [normalizeLines_dedup]
        exact hnl
      rw [calc_eq_cons hd hnl2, calc_eq_cons hne hnl]
